import Mathlib

/- Verification development for the planar-geometry core of CompGeom.js
   (src/site/js/geom.js): the minimum enclosing disc engine, the convex hull
   engine, and the numeric primitives they share.  Points are modelled as pairs
   of real numbers (the idealisation of the JavaScript floating-point values
   that the specification's tolerance policy is designed around), and the
   random draws consumed by the randomized disc engine are made explicit
   arguments, so that every control path of the source is a function of the
   input and of the draw sequence. -/

namespace CompGeom

open scoped Classical

noncomputable section

/-- A 2D point, mirroring the source's two-element coordinate arrays. -/
abbrev Point := ℝ × ℝ

/-- A disc, mirroring the source's `[center, radius]` pairs. -/
abbrev Disc := Point × ℝ

/-- Source `tolerablyEqual(a, b)`: absolute comparison against the fixed
tolerance `0.00001`. -/
def tolerablyEqual (a b : ℝ) : Prop := |a - b| ≤ 0.00001

/-- Source `lessThanOrTolerablyEqual(a, b)`. -/
def lessThanOrTolerablyEqual (a b : ℝ) : Prop := a < b ∨ tolerablyEqual a b

/-- Source `TurnDirection` enumeration. -/
inductive TurnDirection where
  | RIGHT_TURN : TurnDirection
  | NO_TURN : TurnDirection
  | LEFT_TURN : TurnDirection
deriving DecidableEq

/-- Source `distance(p1, p2)`: Euclidean distance. -/
def distance (p1 p2 : Point) : ℝ :=
  Real.sqrt ((p1.1 - p2.1) * (p1.1 - p2.1) + (p1.2 - p2.2) * (p1.2 - p2.2))

/-- Source `turnDirection(p1, p2, p3)`: sign of the cross-product z-value,
classified with the tolerance, in the source's exact branch order. -/
def turnDirection (p1 p2 p3 : Point) : TurnDirection :=
  let z := (p1.1 - p2.1) * (p3.2 - p2.2) - (p1.2 - p2.2) * (p3.1 - p2.1)
  if tolerablyEqual z 0 then TurnDirection.NO_TURN
  else if lessThanOrTolerablyEqual z 0 then TurnDirection.RIGHT_TURN
  else TurnDirection.LEFT_TURN

/-- Source `twoPointDisc(p1, p2)`: the diametral disc. -/
def twoPointDisc (p1 p2 : Point) : Disc :=
  let center : Point := ((p1.1 + p2.1) / 2, (p1.2 + p2.2) / 2)
  (center, distance center p1)

/-- Source `threePointDisc(p1, p2, p3)`: the circumcircle by the closed
determinant formula.  (When the three points are collinear the source divides
by `D = 0`; in this real-number model that division yields `0`.) -/
def threePointDisc (p1 p2 p3 : Point) : Disc :=
  let D := 2 * (p1.1 * (p2.2 - p3.2) + p2.1 * (p3.2 - p1.2) + p3.1 * (p1.2 - p2.2))
  let x := ((p1.1 ^ 2 + p1.2 ^ 2) * (p2.2 - p3.2) + (p2.1 ^ 2 + p2.2 ^ 2) * (p3.2 - p1.2) +
      (p3.1 ^ 2 + p3.2 ^ 2) * (p1.2 - p2.2)) / D
  let y := ((p1.1 ^ 2 + p1.2 ^ 2) * (p3.1 - p2.1) + (p2.1 ^ 2 + p2.2 ^ 2) * (p1.1 - p3.1) +
      (p3.1 ^ 2 + p3.2 ^ 2) * (p2.1 - p1.1)) / D
  ((x, y), distance (x, y) p1)

/-- Source `pointInDisc(p, disc)`. -/
def pointInDisc (p : Point) (disc : Disc) : Prop :=
  lessThanOrTolerablyEqual (distance disc.1 p) disc.2

/-- The total order induced by the source comparator `comparePoints` (sort by
x ascending, ties by y ascending), as the Boolean `le` handed to the sort. -/
def comparePointsLe (a b : Point) : Bool :=
  decide (a.1 < b.1 ∨ (a.1 = b.1 ∧ a.2 ≤ b.2))

/-- Source `lexicographicOrder(points)`: sorts a copy of the input by the
`comparePoints` comparator.  Modelled with a (stable) merge sort, which agrees
with any comparison sort on the induced total order. -/
def lexicographicOrder (points : List Point) : List Point :=
  points.mergeSort comparePointsLe

/-- Source `concat(a, b)` on the non-null path taken by `convexHull` (both
arguments are always arrays there, so the null guard is never exercised). -/
def concat (a b : List Point) : List Point := a ++ b

/-- The body of the source's prune `while` loop in `halfConvexHull`, acting on
the reversed chain (head = most recently pushed point): while there are at
least 3 points and the last three do not make a right turn, remove the middle
one of the last three and retest. -/
def prune : List Point → List Point
  | c :: b :: a :: rest =>
    if turnDirection a b c ≠ TurnDirection.RIGHT_TURN then prune (c :: a :: rest)
    else c :: b :: a :: rest
  | l => l
termination_by l => l.length

/-- The source's scan loop in `halfConvexHull`: push each remaining point and
prune.  `acc` is the chain built so far, in reverse. -/
def halfConvexHullLoop : List Point → List Point → List Point
  | [], acc => acc
  | p :: rest, acc => halfConvexHullLoop rest (prune (p :: acc))

/-- Source `halfConvexHull(points)`: seeds the chain with the first two points
and scans the rest.  (The source is only ever called with at least 3 points;
for shorter inputs, where the source would read an undefined element, the
embedding returns the input unchanged.) -/
def halfConvexHull (points : List Point) : List Point :=
  match points with
  | p0 :: p1 :: rest => (halfConvexHullLoop rest [p1, p0]).reverse
  | l => l

/-- Source `convexHull(points)`: upper chain of the lexicographically sorted
copy, lower chain of its reversal, concatenated after dropping the lower
chain's first point (`lowerHull.splice(0, 1)`).  Inputs of length at most 2
produce no hull (`null`, modelled as `none`). -/
def convexHull (points : List Point) : Option (List Point) :=
  if 2 < points.length then
    let orderedPoints := lexicographicOrder points
    let upperHull := halfConvexHull orderedPoints
    let lowerHull := halfConvexHull orderedPoints.reverse
    some (concat upperHull (lowerHull.drop 1))
  else none

/-- Source `convexHull` as called with a possibly null/undefined sequence: the
guard `if (points && ...)` checks presence of the sequence before its length,
so an absent sequence yields the absent result. -/
def convexHullJS (points : Option (List Point)) : Option (List Point) :=
  match points with
  | none => none
  | some l => convexHull l

/-- Source `randomIntLessThan(upperLimit)`: `Math.floor(Math.random() * upperLimit)`
with the random real draw `r` (a value in `[0, 1)`) made explicit. -/
def randomIntLessThan (r : ℝ) (upperLimit : ℕ) : ℤ := ⌊r * upperLimit⌋

/-- One swap step of the source shuffle: `temp = a[i]; a[i] = a[j]; a[j] = temp`. -/
def swapAt (l : List Point) (i j : ℕ) : List Point :=
  let vi := l.getD i (0, 0)
  let vj := l.getD j (0, 0)
  (l.set i vj).set j vi

/-- The source shuffle loop `for (i = n-1; i > 0; i -= 1)`, consuming one
random draw `j` per iteration.  The draw at iteration `i` is the value of
`randomIntLessThan(i)`, hence satisfies `j < i` (see `ValidDraws`). -/
def permLoop : List Point → ℕ → List ℕ → List Point
  | l, i + 1, j :: rest => permLoop (swapAt l (i + 1) j) i rest
  | l, _, _ => l

/-- Source `randomPermutation(elements)` with the random draws made explicit:
copies the input and runs the swap loop from index `length - 1` down to 1. -/
def randomPermutation (elements : List Point) (draws : List ℕ) : List Point :=
  permLoop elements (elements.length - 1) draws

/-- The draw sequences the source's `randomIntLessThan` can actually produce
for an input of length `n`: one draw per loop iteration `i = n-1, ..., 1`, and
the draw used at iteration `i` is `randomIntLessThan i`, a natural number
strictly less than `i` (see `randomIntLessThan_bounds` and
`randomIntLessThan_surjective`: the values below `i` are exactly the values
`Math.floor(Math.random() * i)` takes). -/
def ValidDraws (n : ℕ) (draws : List ℕ) : Prop :=
  draws.length = n - 1 ∧ ∀ k, k < draws.length → draws.getD k 0 < n - 1 - k

/-- The scan loop of `minimumDiscWith2Points`. -/
def md2Loop : List Point → Point → Point → Disc → Disc
  | [], _, _, minDisc => minDisc
  | t :: rest, p, q, minDisc =>
    if pointInDisc t minDisc then md2Loop rest p q minDisc
    else md2Loop rest p q (threePointDisc t p q)

/-- Source `minimumDiscWith2Points(points, p, q)`. -/
def minimumDiscWith2Points (points : List Point) (p q : Point) : Disc :=
  md2Loop points p q (twoPointDisc p q)

/-- The scan loop of `minimumDiscWithPoint`, carrying the prefix of already
processed points (the source's `points.slice(0, i)`). -/
def md1Loop : List Point → List Point → Point → Disc → Disc
  | _, [], _, minDisc => minDisc
  | pref, x :: rest, p, minDisc =>
    if pointInDisc x minDisc then md1Loop (pref ++ [x]) rest p minDisc
    else md1Loop (pref ++ [x]) rest p (minimumDiscWith2Points pref x p)

/-- Source `minimumDiscWithPoint(points, p)`.  (The source reads `points[0]`
and is only ever called with a nonempty prefix; the empty case, unreachable
from `minimumDisc`, returns the degenerate disc at `p`.) -/
def minimumDiscWithPoint (points : List Point) (p : Point) : Disc :=
  match points with
  | [] => twoPointDisc p p
  | p0 :: rest => md1Loop [p0] rest p (twoPointDisc p0 p)

/-- The top-level scan loop of `minimumDisc`, carrying the prefix of already
processed points (the source's `randomPoints.slice(0, i)`). -/
def mdLoop : List Point → List Point → Disc → Disc
  | _, [], minDisc => minDisc
  | pref, x :: rest, minDisc =>
    if pointInDisc x minDisc then mdLoop (pref ++ [x]) rest minDisc
    else mdLoop (pref ++ [x]) rest (minimumDiscWithPoint pref x)

/-- Source `minimumDisc(points)` with the random draws explicit: fewer than
2 points produce no disc (`null`); otherwise the input is shuffled, the disc
is seeded from the first two shuffled points and the remaining points are
scanned.  (The second `none` branch is unreachable: the shuffle preserves the
length, which the guard has checked to be at least 2.) -/
def minimumDisc (points : List Point) (draws : List ℕ) : Option Disc :=
  if 2 ≤ points.length then
    match randomPermutation points draws with
    | p0 :: p1 :: rest => some (mdLoop [p0, p1] rest (twoPointDisc p0 p1))
    | _ => none
  else none

/-- Source `minimumDisc` as called with a possibly null/undefined sequence:
the guard `if (points && points.length >= 2)` checks presence first. -/
def minimumDiscJS (points : Option (List Point)) (draws : List ℕ) : Option Disc :=
  match points with
  | none => none
  | some l => minimumDisc l draws

/-- General position of an input sequence, as used by the specification: no
three pairwise-distinct members of the sequence are collinear (zero
cross-product, the same expression `turnDirection` classifies). -/
def GeneralPosition (l : List Point) : Prop :=
  ∀ p ∈ l, ∀ q ∈ l, ∀ r ∈ l, p ≠ q → p ≠ r → q ≠ r →
    (p.1 - q.1) * (r.2 - q.2) - (p.2 - q.2) * (r.1 - q.1) ≠ 0

/-- A necessary condition of the specification's hull-containment predicate.
If a point lies inside the polygon formed by the vertex list `vs`, or within
the tolerance of that polygon's boundary, then for every convex set containing
all of `vs` (in particular for the polygon's own region) some member of the
set is within the tolerance of the point.  Refuting this refutes the
specification's predicate. -/
def nearConvexOf (vs : List Point) (p : Point) : Prop :=
  ∀ s : Set Point, Convex ℝ s → (∀ v ∈ vs, v ∈ s) → ∃ w ∈ s, distance p w ≤ 0.00001

/-- Source `points.slice(0)` / `points.slice()`: a fresh copy whose value is
that of the input. -/
def sliceCopy (l : List Point) : List Point := l

/-- Source `orderedPoints.sort(comparePoints)`: the in-place sort, as the new
value the mutated array variable holds afterwards. -/
def sortInPlace (l : List Point) : List Point := l.mergeSort comparePointsLe

/-- Source `orderedPoints.reverse()`: the in-place reversal, as the new value
the mutated array variable holds afterwards. -/
def reverseInPlace (l : List Point) : List Point := l.reverse

/-- Source `lowerHull.splice(0, 1)`: in-place removal of the first element,
as the new value the mutated array variable holds afterwards. -/
def spliceDropFirst (l : List Point) : List Point := l.drop 1

/-- `lexicographicOrder` with the buffers made explicit: the result value
together with the caller's buffer as the function leaves it.  The source
copies (`slice`) and sorts the copy in place; the input variable is never the
receiver of a mutating method, so the caller's buffer is returned as passed. -/
def lexicographicOrderSt (points : List Point) : List Point × List Point :=
  let orderedPoints := sliceCopy points
  let orderedPoints1 := sortInPlace orderedPoints
  (orderedPoints1, points)

/-- `convexHull` with the buffers made explicit, mirroring the source line by
line: every mutating method (`sort`, `reverse`, `splice`) is applied to the
private sorted copy or to the private chain arrays, never to `points`. -/
def convexHullSt (points : List Point) : Option (List Point) × List Point :=
  if 2 < points.length then
    let orderedPoints := sortInPlace (sliceCopy points)
    let upperHull := halfConvexHull orderedPoints
    let orderedPoints1 := reverseInPlace orderedPoints
    let lowerHull := halfConvexHull orderedPoints1
    let lowerHull1 := spliceDropFirst lowerHull
    (some (concat upperHull lowerHull1), points)
  else (none, points)

/-- `minimumDisc` with the buffers made explicit: the shuffle operates on the
copy `randomPoints = elements.slice()`, and the scan loops only read; the
caller's buffer is returned as passed. -/
def minimumDiscSt (points : List Point) (draws : List ℕ) : Option Disc × List Point :=
  if 2 ≤ points.length then
    let randomPoints := randomPermutation points draws
    match randomPoints with
    | p0 :: p1 :: rest => (some (mdLoop [p0, p1] rest (twoPointDisc p0 p1)), points)
    | _ => (none, points)
  else (none, points)

/-- C2 counterexample input: three points in general position, the middle one
lifted off the segment by 1/250, far more than the tolerance, yet with a
cross-product (8e-6) below the tolerance, so the turn test prunes it. -/
def hullPtA : Point := (0, 0)

/-- Middle point of the C2 counterexample input. -/
def hullPtB : Point := (1 / 1000, 1 / 250)

/-- Right point of the C2 counterexample input. -/
def hullPtC : Point := (1 / 500, 0)

/-- The C2 counterexample input sequence (already lexicographically sorted). -/
def hullNearCollinearInput : List Point := [hullPtA, hullPtB, hullPtC]

/-- C3 counterexample input: a plain triangle (already lexicographically
sorted). -/
def triInput : List Point := [(0, 0), (0, 4), (4, 0)]

/-- C6 counterexample input: three copies of one point (one distinct point). -/
def dupInput : List Point := [(0, 0), (0, 0), (0, 0)]

/-- C9 counterexample: first input point (labelled by its position in the two
scan orders the two draw sequences produce). -/
def q0 : Point := (-158 / 1000000, 143 / 1000000)

/-- C9 counterexample: second point. -/
def q1 : Point := (-197 / 1000000, 99 / 1000000)

/-- C9 counterexample: third point. -/
def q2 : Point := (47 / 1000000, -54 / 1000000)

/-- C9 counterexample: fourth point. -/
def q3 : Point := (20 / 1000000, -85 / 1000000)

/-- C9 counterexample input sequence. -/
def discInput : List Point := [q2, q3, q1, q0]

/-- C9: first draw sequence (valid for length 4); shuffles `discInput` into
the scan order `[q0, q1, q2, q3]`. -/
def drawsA : List ℕ := [1, 0, 0]

/-- C9: second draw sequence (valid for length 4); shuffles `discInput` into
the scan order `[q1, q0, q3, q2]`. -/
def drawsB : List ℕ := [0, 1, 0]

end

/-! Helper lemmas about the tolerance comparisons and square roots. -/

/-- Sufficient condition for the tolerant less-or-equal test. -/
lemma lte_of_le_add {a b : ℝ} (h : a ≤ b + 0.00001) : lessThanOrTolerablyEqual a b := by
  rcases lt_or_ge a b with hlt | hge
  · exact Or.inl hlt
  · refine Or.inr ?_
    rw [tolerablyEqual, abs_le]
    constructor <;> linarith

/-- Sufficient condition for the tolerant less-or-equal test to fail. -/
lemma not_lte_of_gt {a b : ℝ} (h : b + 0.00001 < a) : ¬ lessThanOrTolerablyEqual a b := by
  rintro (hlt | htol)
  · linarith
  · rw [tolerablyEqual, abs_le] at htol
    linarith

/-- Compare square roots through a rational lower bound on the larger side. -/
lemma sqrt_le_sqrt_add_tol {A B L : ℝ} (hL : 0 ≤ L) (hLB : L ^ 2 ≤ B)
    (hA : A ≤ (L + 0.00001) ^ 2) : Real.sqrt A ≤ Real.sqrt B + 0.00001 := by
  have h1 : Real.sqrt A ≤ L + 0.00001 := by
    rw [Real.sqrt_le_iff]
    exact ⟨by linarith, hA⟩
  have h2 : L ≤ Real.sqrt B := by
    rw [Real.le_sqrt hL (by nlinarith)]
    exact hLB
  linarith

/-- Compare square roots through a rational upper bound on the smaller side. -/
lemma sqrt_gt_sqrt_add_tol {A B U : ℝ} (hU : 0 ≤ U) (hBU : B ≤ U ^ 2)
    (hA : (U + 0.00001) ^ 2 < A) : Real.sqrt B + 0.00001 < Real.sqrt A := by
  have h1 : Real.sqrt B ≤ U := by
    rw [Real.sqrt_le_iff]
    exact ⟨hU, hBU⟩
  have h2 : U + 0.00001 < Real.sqrt A := by
    rw [Real.lt_sqrt (by linarith)]
    exact hA
  linarith

/-- Establish membership in a disc given through a center and a boundary
point, via a rational lower bound `L` on the radius. -/
lemma pointInDisc_of_bound (x c w : Point) (L : ℝ) (hL : 0 ≤ L)
    (hB : L ^ 2 ≤ (c.1 - w.1) * (c.1 - w.1) + (c.2 - w.2) * (c.2 - w.2))
    (hA : (c.1 - x.1) * (c.1 - x.1) + (c.2 - x.2) * (c.2 - x.2) ≤ (L + 0.00001) ^ 2) :
    pointInDisc x (c, distance c w) := by
  exact lte_of_le_add (sqrt_le_sqrt_add_tol hL hB hA)

/-- Refute membership in a disc given through a center and a boundary point,
via a rational upper bound `U` on the radius. -/
lemma not_pointInDisc_of_bound (x c w : Point) (U : ℝ) (hU : 0 ≤ U)
    (hB : (c.1 - w.1) * (c.1 - w.1) + (c.2 - w.2) * (c.2 - w.2) ≤ U ^ 2)
    (hA : (U + 0.00001) ^ 2 < (c.1 - x.1) * (c.1 - x.1) + (c.2 - x.2) * (c.2 - x.2)) :
    ¬ pointInDisc x (c, distance c w) := by
  exact not_lte_of_gt (sqrt_gt_sqrt_add_tol hU hB hA)

/-- The tolerance test, unfolded for numeric evaluation. -/
lemma tolerablyEqual_iff {a b : ℝ} :
    tolerablyEqual a b ↔ a - b ≤ 0.00001 ∧ b - a ≤ 0.00001 := by
  rw [tolerablyEqual, abs_sub_le_iff]

/-- The diametral disc, with its center and boundary point exposed. -/
lemma twoPointDisc_eq (p q : Point) :
    twoPointDisc p q =
      (((p.1 + q.1) / 2, (p.2 + q.2) / 2),
        distance ((p.1 + q.1) / 2, (p.2 + q.2) / 2) p) := rfl

/-! Facts about the comparator order and the sort. -/

/-- The comparator order is transitive. -/
lemma comparePointsLe_trans (a b c : Point) (hab : comparePointsLe a b = true)
    (hbc : comparePointsLe b c = true) : comparePointsLe a c = true := by
  simp only [comparePointsLe, decide_eq_true_eq] at hab hbc ⊢
  rcases hab with h1 | ⟨h1, h1'⟩ <;> rcases hbc with h2 | ⟨h2, h2'⟩
  · exact Or.inl (h1.trans h2)
  · exact Or.inl (h2 ▸ h1)
  · exact Or.inl (h1 ▸ h2)
  · exact Or.inr ⟨h1.trans h2, h1'.trans h2'⟩

/-- The comparator order is total. -/
lemma comparePointsLe_total (a b : Point) :
    (comparePointsLe a b || comparePointsLe b a) = true := by
  simp only [comparePointsLe, Bool.or_eq_true, decide_eq_true_eq]
  rcases lt_trichotomy a.1 b.1 with h | h | h
  · exact Or.inl (Or.inl h)
  · rcases le_total a.2 b.2 with h2 | h2
    · exact Or.inl (Or.inr ⟨h, h2⟩)
    · exact Or.inr (Or.inr ⟨h.symm, h2⟩)
  · exact Or.inr (Or.inl h)

/-- The comparator order is antisymmetric. -/
lemma comparePointsLe_antisymm {a b : Point} (hab : comparePointsLe a b = true)
    (hba : comparePointsLe b a = true) : a = b := by
  simp only [comparePointsLe, decide_eq_true_eq] at hab hba
  rcases hab with h1 | ⟨h1, h1'⟩ <;> rcases hba with h2 | ⟨h2, h2'⟩
  · exact absurd h2 (not_lt.mpr h1.le)
  · exact absurd h1 (not_lt.mpr h2.le)
  · exact absurd h2 (not_lt.mpr h1.le)
  · exact Prod.ext h1 (le_antisymm h1' h2')

instance : IsAntisymm Point (fun a b => comparePointsLe a b = true) :=
  ⟨fun _ _ => comparePointsLe_antisymm⟩

/-- The sorted copy is a permutation of the input. -/
lemma lexicographicOrder_perm (l : List Point) : (lexicographicOrder l).Perm l :=
  List.mergeSort_perm l _

/-- The sorted copy is sorted for the comparator order. -/
lemma lexicographicOrder_sorted (l : List Point) :
    (lexicographicOrder l).Sorted (fun a b => comparePointsLe a b = true) :=
  List.sorted_mergeSort comparePointsLe_trans comparePointsLe_total l

/-- Sorting an already sorted list changes nothing. -/
lemma lexicographicOrder_eq_self {l : List Point}
    (h : l.Sorted (fun a b => comparePointsLe a b = true)) : lexicographicOrder l = l :=
  List.eq_of_perm_of_sorted (lexicographicOrder_perm l) (lexicographicOrder_sorted l) h

/-! The random index draws: `Math.floor(Math.random() * upperLimit)` takes
exactly the integer values `0, ..., upperLimit - 1`. -/

/-- For a random draw in `[0, 1)` the source's index is in `[0, upperLimit)`. -/
lemma randomIntLessThan_bounds (r : ℝ) (n : ℕ) (h0 : 0 ≤ r) (h1 : r < 1) (hn : 0 < n) :
    0 ≤ randomIntLessThan r n ∧ randomIntLessThan r n < n := by
  constructor
  · exact Int.floor_nonneg.mpr (by positivity)
  · apply Int.floor_lt.mpr
    calc r * n < 1 * n := by
          apply mul_lt_mul_of_pos_right h1
          exact_mod_cast hn
      _ = n := one_mul _

/-- Every index below `upperLimit` is produced by some draw in `[0, 1)`. -/
lemma randomIntLessThan_surjective (j n : ℕ) (h : j < n) :
    ∃ r : ℝ, 0 ≤ r ∧ r < 1 ∧ randomIntLessThan r n = j := by
  have hn : (0 : ℝ) < n := by exact_mod_cast Nat.pos_of_ne_zero (by omega)
  refine ⟨j / n, by positivity, ?_, ?_⟩
  · rw [div_lt_one hn]
    exact_mod_cast h
  · rw [randomIntLessThan, div_mul_cancel₀ _ (ne_of_gt hn)]
    exact_mod_cast Int.floor_natCast j

/-! The shuffle rearranges a copy: length preservation and permutation. -/

/-- A swap step does not change the length. -/
lemma swapAt_length (l : List Point) (i j : ℕ) : (swapAt l i j).length = l.length := by
  simp [swapAt]

/-- The swap loop does not change the length. -/
lemma permLoop_length : ∀ (draws : List ℕ) (i : ℕ) (l : List Point),
    (permLoop l i draws).length = l.length := by
  intro draws
  induction draws with
  | nil =>
    intro i l
    cases i <;> rw [permLoop] <;> simp
  | cons j rest ih =>
    intro i l
    cases i with
    | zero => rw [permLoop] <;> simp
    | succ i => rw [permLoop, ih, swapAt_length]

/-- The shuffled copy has the length of the input (in particular the
`minimumDisc` guard's length test transfers to the shuffled sequence, so its
fallback match branch is unreachable). -/
lemma randomPermutation_length (l : List Point) (draws : List ℕ) :
    (randomPermutation l draws).length = l.length :=
  permLoop_length draws _ l

/-- Consing an element and writing it at position `j` instead is a
permutation. -/
lemma cons_set_perm (x : Point) : ∀ (t : List Point) (j : ℕ), j < t.length →
    (x :: t).Perm (t.getD j (0, 0) :: t.set j x) := by
  intro t
  induction t with
  | nil =>
    intro j hj
    simp at hj
  | cons y t1 ih =>
    intro j hj
    cases j with
    | zero =>
      simp only [List.getD_cons_zero, List.set_cons_zero]
      exact List.Perm.swap _ _ _
    | succ j =>
      have hj1 : j < t1.length := by simpa using hj
      simp only [List.getD_cons_succ, List.set_cons_succ]
      have step1 : (x :: y :: t1).Perm (y :: x :: t1) := List.Perm.swap _ _ _
      have step2 : (y :: x :: t1).Perm (y :: (t1.getD j (0, 0) :: t1.set j x)) :=
        List.Perm.cons _ (ih j hj1)
      have step3 : (y :: t1.getD j (0, 0) :: t1.set j x).Perm
          (t1.getD j (0, 0) :: y :: t1.set j x) := List.Perm.swap _ _ _
      exact (step1.trans step2).trans step3

/-- A swap of two in-range positions is a permutation. -/
lemma swapAt_perm : ∀ (l : List Point) (i j : ℕ), i < l.length → j < l.length →
    (swapAt l i j).Perm l := by
  intro l
  induction l with
  | nil =>
    intro i j hi _
    simp at hi
  | cons x t ih =>
    intro i j hi hj
    match i, j with
    | 0, 0 =>
      simp [swapAt]
    | 0, j + 1 =>
      have hj1 : j < t.length := by simpa using hj
      simp only [swapAt, List.getD_cons_zero, List.getD_cons_succ, List.set_cons_zero,
        List.set_cons_succ]
      exact (cons_set_perm x t j hj1).symm
    | i + 1, 0 =>
      have hi1 : i < t.length := by simpa using hi
      simp only [swapAt, List.getD_cons_zero, List.getD_cons_succ, List.set_cons_zero,
        List.set_cons_succ]
      exact (cons_set_perm x t i hi1).symm
    | i + 1, j + 1 =>
      have hi1 : i < t.length := by simpa using hi
      have hj1 : j < t.length := by simpa using hj
      simp only [swapAt, List.getD_cons_succ, List.set_cons_succ]
      exact List.Perm.cons x (ih i j hi1 hj1)

/-- The swap loop performs index-valid swaps only, so it permutes. -/
lemma permLoop_perm : ∀ (draws : List ℕ) (m : ℕ) (l : List Point), m < l.length →
    (∀ k, k < draws.length → draws.getD k 0 < m - k) → (permLoop l m draws).Perm l := by
  intro draws
  induction draws with
  | nil =>
    intro m l _ _
    cases m <;> rw [permLoop] <;> simp
  | cons j rest ih =>
    intro m l hm hk
    cases m with
    | zero => rw [permLoop] <;> simp
    | succ m =>
      rw [permLoop]
      have hj : j < m + 1 := by
        have := hk 0 (by simp)
        simpa using this
      have hswap : (swapAt l (m + 1) j).Perm l :=
        swapAt_perm l (m + 1) j hm (lt_of_lt_of_le hj (le_of_lt hm))
      refine (ih m (swapAt l (m + 1) j) ?_ ?_).trans hswap
      · rw [swapAt_length]
        omega
      · intro k hk1
        have := hk (k + 1) (by simpa using hk1)
        simpa using this

/-- The shuffled copy is a rearrangement of the input, for every draw
sequence the source loop can produce. -/
lemma randomPermutation_perm (l : List Point) (draws : List ℕ)
    (h : ValidDraws l.length draws) : (randomPermutation l draws).Perm l := by
  rcases l with _ | ⟨x, t⟩
  · rw [randomPermutation]
    rw [permLoop.eq_def]
    cases draws <;> rfl
  · exact permLoop_perm draws _ _ (by simp) (fun k hk => h.2 k hk)

/-- Claim C5: for any two-element input and any draw sequence the source's
`randomIntLessThan(i)` can produce, the shuffle swaps the two elements: the
loop runs once with `i = 1` and `j = randomIntLessThan(1) = 0`.  The identity
arrangement is therefore impossible, so the shuffle is not a uniformly random
permutation (it is Sattolo's cyclic-shuffle, `j` drawn below `i` instead of
below `i + 1`). -/
theorem randomPermutation_two_always_swaps (a b : Point) (draws : List ℕ)
    (h : ValidDraws 2 draws) : randomPermutation [a, b] draws = [b, a] := by
  obtain ⟨hlen, hlt⟩ := h
  match draws, hlen with
  | [j], _ =>
    have hj : j < 1 := by
      have := hlt 0 (by simp)
      simpa using this
    interval_cases j
    rfl

/-- Witness: the concrete two-point input `[(0,0), (1,1)]` with the only valid
draw sequence `[0]` comes back reversed. -/
theorem randomPermutation_two_always_swaps_witness :
    ValidDraws 2 [0] ∧
      randomPermutation [((0 : ℝ), (0 : ℝ)), ((1 : ℝ), (1 : ℝ))] [0] =
        [((1 : ℝ), (1 : ℝ)), ((0 : ℝ), (0 : ℝ))] := by
  have hv : ValidDraws 2 [0] := by
    constructor
    · rfl
    · intro k hk
      simp only [List.length_cons, List.length_nil] at hk
      interval_cases k
      simp
  exact ⟨hv, randomPermutation_two_always_swaps _ _ _ hv⟩

/-! Claim C6: insufficient input. -/

/-- Claim C6, amended: absent results are produced exactly on the length guards the
source actually checks — `minimumDisc` returns the absent result for every
input of fewer than 2 points, and `convexHull` for every input of fewer than
3 points, counted with multiplicity (duplicates are not collapsed). -/
theorem insufficient_input_absent :
    (∀ (P : List Point) (draws : List ℕ), P.length < 2 → minimumDisc P draws = none) ∧
      (∀ P : List Point, P.length < 3 → convexHull P = none) := by
  constructor
  · intro P draws h
    rw [minimumDisc, if_neg (by omega)]
  · intro P h
    rw [convexHull, if_neg (by omega)]

/-- Witness: the empty input yields no disc and no hull. -/
theorem insufficient_input_absent_witness :
    minimumDisc [] [] = none ∧ convexHull [] = none :=
  ⟨insufficient_input_absent.1 [] [] (by simp),
    insufficient_input_absent.2 [] (by simp)⟩

/-! Structural lemmas about the prune loop and the half-chain scan. -/

/-- The prune loop on the empty chain. -/
lemma prune_nil : prune [] = [] := by
  rw [prune]
  all_goals simp

/-- The prune loop on a one-element chain. -/
lemma prune_one (c : Point) : prune [c] = [c] := by
  rw [prune]
  all_goals simp

/-- The prune loop on a two-element chain: the source's `n > 2` guard stops
pruning below three elements. -/
lemma prune_two (c b : Point) : prune [c, b] = [c, b] := by
  rw [prune]
  all_goals simp

/-- Pruning only removes points. -/
lemma prune_subset (l : List Point) : ∀ x ∈ prune l, x ∈ l := by
  induction l using prune.induct with
  | case1 c b a rest h ih =>
    intro x hx
    rw [prune, if_pos h] at hx
    have := ih x hx
    simp only [List.mem_cons] at this ⊢
    tauto
  | case2 c b a rest h =>
    intro x hx
    rw [prune, if_neg h] at hx
    exact hx
  | case3 l h =>
    rcases l with _ | ⟨c, _ | ⟨b, _ | ⟨a, rest⟩⟩⟩
    · simp [prune_nil]
    · simp [prune_one]
    · simp [prune_two]
    · exact (h c b a rest rfl).elim

/-- Pruning never removes the most recently pushed point (the head of the
reversed chain). -/
lemma prune_headq (c : Point) (l : List Point) : (prune (c :: l)).head? = some c := by
  generalize hgen : c :: l = m
  induction m using prune.induct generalizing c l with
  | case1 c' b a rest h ih =>
    rw [prune, if_pos h]
    cases hgen
    exact ih _ _ rfl
  | case2 c' b a rest h =>
    rw [prune, if_neg h]
    cases hgen
    rfl
  | case3 m h =>
    rcases m with _ | ⟨c', _ | ⟨b, _ | ⟨a, rest⟩⟩⟩
    · cases hgen
    · rw [prune_one]; cases hgen; rfl
    · rw [prune_two]; cases hgen; rfl
    · exact (h c' b a rest rfl).elim

/-- Pruning never removes the chain's first pushed point (the last element of
the reversed chain): only middles of the last three are spliced out. -/
lemma prune_getLastq (l : List Point) : (prune l).getLast? = l.getLast? := by
  induction l using prune.induct with
  | case1 c b a rest h ih =>
    rw [prune, if_pos h, ih]
    rcases rest with _ | ⟨y, t⟩
    · rfl
    · simp [List.getLast?_cons_cons]
  | case2 c b a rest h =>
    rw [prune, if_neg h]
  | case3 l h =>
    rcases l with _ | ⟨c, _ | ⟨b, _ | ⟨a, rest⟩⟩⟩
    · rw [prune_nil]
    · rw [prune_one]
    · rw [prune_two]
    · exact (h c b a rest rfl).elim

/-- Pruning keeps at least two points. -/
lemma prune_length (l : List Point) (h2 : 2 ≤ l.length) : 2 ≤ (prune l).length := by
  induction l using prune.induct with
  | case1 c b a rest h ih =>
    rw [prune, if_pos h]
    exact ih (by simp)
  | case2 c b a rest h =>
    rw [prune, if_neg h]
    simp
  | case3 l h =>
    rcases l with _ | ⟨c, _ | ⟨b, _ | ⟨a, rest⟩⟩⟩
    · simpa using h2
    · simpa [prune_one] using h2
    · simpa [prune_two] using h2
    · exact (h c b a rest rfl).elim

/-- A nonempty chain stays nonempty under pruning. -/
lemma prune_ne_nil (c : Point) (l : List Point) : prune (c :: l) ≠ [] := by
  intro hnil
  have := prune_headq c l
  rw [hnil] at this
  cases this

/-- Every point of the scanned chain is an input point or a seed point. -/
lemma halfConvexHullLoop_subset (pts : List Point) :
    ∀ acc, ∀ x ∈ halfConvexHullLoop pts acc, x ∈ pts ∨ x ∈ acc := by
  induction pts with
  | nil =>
    intro acc x hx
    exact Or.inr hx
  | cons p rest ih =>
    intro acc x hx
    rw [halfConvexHullLoop] at hx
    rcases ih _ x hx with hmem | hmem
    · exact Or.inl (List.mem_cons_of_mem _ hmem)
    · rcases List.mem_cons.mp (prune_subset _ x hmem) with h0 | h0
      · exact Or.inl (by simp [h0])
      · exact Or.inr h0

/-- The scan never removes the bottom of the chain. -/
lemma halfConvexHullLoop_getLastq (pts : List Point) :
    ∀ acc, acc ≠ [] → (halfConvexHullLoop pts acc).getLast? = acc.getLast? := by
  induction pts with
  | nil =>
    intro acc _
    rfl
  | cons p rest ih =>
    intro acc hne
    rw [halfConvexHullLoop]
    rw [ih _ (prune_ne_nil p acc), prune_getLastq]
    rcases acc with _ | ⟨y, t⟩
    · exact absurd rfl hne
    · simp [List.getLast?_cons_cons]

/-- After a nonempty scan, the top of the chain is the last scanned point. -/
lemma halfConvexHullLoop_headq (pts : List Point) :
    ∀ acc, pts ≠ [] → (halfConvexHullLoop pts acc).head? = pts.getLast? := by
  induction pts with
  | nil =>
    intro acc h
    exact absurd rfl h
  | cons p rest ih =>
    intro acc _
    rw [halfConvexHullLoop]
    rcases rest with _ | ⟨y, t⟩
    · rw [halfConvexHullLoop]
      simp [prune_headq]
    · rw [ih _ (by simp), List.getLast?_cons_cons]

/-- The scanned chain keeps at least two points. -/
lemma halfConvexHullLoop_length (pts : List Point) :
    ∀ acc, 2 ≤ acc.length → 2 ≤ (halfConvexHullLoop pts acc).length := by
  induction pts with
  | nil =>
    intro acc h
    exact h
  | cons p rest ih =>
    intro acc h
    rw [halfConvexHullLoop]
    exact ih _ (prune_length _ (by simp; omega))

/-- Every half-chain vertex is an input point. -/
lemma halfConvexHull_subset (points : List Point) :
    ∀ x ∈ halfConvexHull points, x ∈ points := by
  rcases points with _ | ⟨p0, _ | ⟨p1, rest⟩⟩
  · intro x hx
    exact hx
  · intro x hx
    exact hx
  · intro x hx
    rw [halfConvexHull] at hx
    rw [List.mem_reverse] at hx
    rcases halfConvexHullLoop_subset rest _ x hx with h | h
    · simp only [List.mem_cons]
      tauto
    · simp only [List.mem_cons, List.mem_singleton] at h ⊢
      tauto

/-- A half chain starts with the first point handed to it. -/
lemma halfConvexHull_headq (p0 p1 : Point) (rest : List Point) :
    (halfConvexHull (p0 :: p1 :: rest)).head? = some p0 := by
  rw [halfConvexHull, List.head?_reverse]
  rw [halfConvexHullLoop_getLastq rest _ (by simp)]
  rfl

/-- A half chain ends with the last point handed to it. -/
lemma halfConvexHull_getLastq (p0 p1 : Point) (rest : List Point) :
    (halfConvexHull (p0 :: p1 :: rest)).getLast? = (p0 :: p1 :: rest).getLast? := by
  rw [halfConvexHull, List.getLast?_reverse]
  rcases rest with _ | ⟨y, t⟩
  · rfl
  · rw [halfConvexHullLoop_headq _ _ (by simp), List.getLast?_cons_cons,
      List.getLast?_cons_cons]

/-- A half chain has at least two vertices. -/
lemma halfConvexHull_length (p0 p1 : Point) (rest : List Point) :
    2 ≤ (halfConvexHull (p0 :: p1 :: rest)).length := by
  rw [halfConvexHull, List.length_reverse]
  exact halfConvexHullLoop_length rest _ (by simp)

/-- Classify a turn as NO_TURN from the tolerance test on the cross product. -/
lemma turnDirection_eq_no (p1 p2 p3 : Point)
    (h : tolerablyEqual ((p1.1 - p2.1) * (p3.2 - p2.2) - (p1.2 - p2.2) * (p3.1 - p2.1)) 0) :
    turnDirection p1 p2 p3 = TurnDirection.NO_TURN := by
  simp only [turnDirection]
  rw [if_pos h]

/-- Classify a turn as RIGHT_TURN. -/
lemma turnDirection_eq_right (p1 p2 p3 : Point)
    (h1 : ¬ tolerablyEqual ((p1.1 - p2.1) * (p3.2 - p2.2) - (p1.2 - p2.2) * (p3.1 - p2.1)) 0)
    (h2 : lessThanOrTolerablyEqual
      ((p1.1 - p2.1) * (p3.2 - p2.2) - (p1.2 - p2.2) * (p3.1 - p2.1)) 0) :
    turnDirection p1 p2 p3 = TurnDirection.RIGHT_TURN := by
  simp only [turnDirection]
  rw [if_neg h1, if_pos h2]

/-- Classify a turn as LEFT_TURN. -/
lemma turnDirection_eq_left (p1 p2 p3 : Point)
    (h1 : ¬ tolerablyEqual ((p1.1 - p2.1) * (p3.2 - p2.2) - (p1.2 - p2.2) * (p3.1 - p2.1)) 0)
    (h2 : ¬ lessThanOrTolerablyEqual
      ((p1.1 - p2.1) * (p3.2 - p2.2) - (p1.2 - p2.2) * (p3.1 - p2.1)) 0) :
    turnDirection p1 p2 p3 = TurnDirection.LEFT_TURN := by
  simp only [turnDirection]
  rw [if_neg h1, if_neg h2]

/-! Claim C7: totality of the hull computation. -/

/-- Claim C7: every input of more than two points (collinear or duplicated
points included) produces a hull: the guard accepts it, the sort and the two
scan-and-prune passes always terminate (the prune loop needs at least three
chain points and removes one per iteration), and a value is returned. -/
theorem convexHull_total (P : List Point) (h : 2 < P.length) :
    ∃ hull, convexHull P = some hull := by
  rw [convexHull, if_pos h]
  exact ⟨_, rfl⟩

/-- Witness: an all-collinear input with a duplicated point still yields a
hull. -/
theorem convexHull_total_witness :
    2 < ([((0 : ℝ), (0 : ℝ)), ((1 : ℝ), (0 : ℝ)), ((1 : ℝ), (0 : ℝ)), ((2 : ℝ), (0 : ℝ))] :
        List Point).length ∧
      ∃ hull,
        convexHull
            [((0 : ℝ), (0 : ℝ)), ((1 : ℝ), (0 : ℝ)), ((1 : ℝ), (0 : ℝ)), ((2 : ℝ), (0 : ℝ))] =
          some hull :=
  ⟨by simp, convexHull_total _ (by simp)⟩

/-! Claim C8: the callers' sequences are never mutated. -/

/-- Claim C8: the sorted copy is sorted by (x, then y) ascending and is a
permutation of the input, and in the buffer-explicit embeddings of `lexicographicOrder`,
`convexHull` and `minimumDisc` — which mirror the source line by line, every
mutating array method acting on a private copy — the caller's sequence comes
back exactly as passed, while the result agrees with the plain embedding;
moreover the shuffle's private copy is a genuine rearrangement of the input
for every draw sequence the source loop can produce. -/
theorem no_caller_mutation :
    (∀ P : List Point,
        (lexicographicOrder P).Sorted (fun a b => comparePointsLe a b = true) ∧
          (lexicographicOrder P).Perm P ∧ (lexicographicOrderSt P).2 = P ∧
          (lexicographicOrderSt P).1 = lexicographicOrder P) ∧
      (∀ P : List Point, (convexHullSt P).2 = P ∧ (convexHullSt P).1 = convexHull P) ∧
      (∀ (P : List Point) (draws : List ℕ),
        (minimumDiscSt P draws).2 = P ∧ (minimumDiscSt P draws).1 = minimumDisc P draws) ∧
      (∀ (P : List Point) (draws : List ℕ), ValidDraws P.length draws →
        (randomPermutation P draws).Perm P) := by
  refine ⟨fun P => ⟨lexicographicOrder_sorted P, lexicographicOrder_perm P, rfl, rfl⟩,
    fun P => ?_, fun P draws => ?_, fun P draws h => randomPermutation_perm P draws h⟩
  · by_cases h : 2 < P.length
    · rw [convexHullSt, convexHull, if_pos h, if_pos h]
      exact ⟨rfl, rfl⟩
    · rw [convexHullSt, convexHull, if_neg h, if_neg h]
      exact ⟨rfl, rfl⟩
  · by_cases h : 2 ≤ P.length
    · rw [minimumDiscSt, minimumDisc, if_pos h, if_pos h]
      rcases randomPermutation P draws with _ | ⟨a, _ | ⟨b, rest⟩⟩
      · exact ⟨rfl, rfl⟩
      · exact ⟨rfl, rfl⟩
      · exact ⟨rfl, rfl⟩
    · rw [minimumDiscSt, minimumDisc, if_neg h, if_neg h]
      exact ⟨rfl, rfl⟩

/-- Witness for C8: the shuffle's private copy of a concrete two-point input
is a rearrangement of it, under the only valid draw sequence. -/
theorem no_caller_mutation_witness :
    ValidDraws ([((0 : ℝ), (0 : ℝ)), ((1 : ℝ), (1 : ℝ))] : List Point).length [0] ∧
      (randomPermutation [((0 : ℝ), (0 : ℝ)), ((1 : ℝ), (1 : ℝ))] [0]).Perm
        [((0 : ℝ), (0 : ℝ)), ((1 : ℝ), (1 : ℝ))] := by
  have hv : ValidDraws ([((0 : ℝ), (0 : ℝ)), ((1 : ℝ), (1 : ℝ))] : List Point).length [0] := by
    constructor
    · rfl
    · intro k hk
      simp only [List.length_cons, List.length_nil] at hk
      interval_cases k
      simp
  exact ⟨hv, no_caller_mutation.2.2.2 _ [0] hv⟩

/-! Claim C10: null input. -/

/-- Claim C10: a null/undefined point sequence (modelled as the absent value, as opposed
to an empty sequence) makes both guards fail on the presence check before any
length is read, so both operations return the absent result rather than
raising. -/
theorem null_input_absent (draws : List ℕ) :
    convexHullJS none = none ∧ minimumDiscJS none draws = none :=
  ⟨rfl, rfl⟩

/-! Claim C3: the chain concatenation and the closing vertex. -/

/-- The triangle input is already sorted, so the sorted copy equals it. -/
lemma triInput_sorted_eq : lexicographicOrder triInput = triInput := by
  apply lexicographicOrder_eq_self
  simp only [triInput, List.sorted_cons, List.mem_cons, List.mem_singleton, List.not_mem_nil,
    comparePointsLe, decide_eq_true_eq]
  norm_num

/-- Upper chain of the triangle: the middle sorted point (0,4) makes a left
turn and is pruned. -/
lemma tri_upper_eval :
    halfConvexHull triInput = [((0 : ℝ), (0 : ℝ)), ((4 : ℝ), (0 : ℝ))] := by
  have ht : turnDirection ((0 : ℝ), (0 : ℝ)) ((0 : ℝ), (4 : ℝ)) ((4 : ℝ), (0 : ℝ)) =
      TurnDirection.LEFT_TURN := by
    apply turnDirection_eq_left
    · norm_num [tolerablyEqual_iff]
    · norm_num [lessThanOrTolerablyEqual, tolerablyEqual_iff]
  show (halfConvexHullLoop [((4 : ℝ), (0 : ℝ))]
      [((0 : ℝ), (4 : ℝ)), ((0 : ℝ), (0 : ℝ))]).reverse = _
  rw [halfConvexHullLoop, halfConvexHullLoop]
  rw [prune, if_pos (show turnDirection ((0 : ℝ), (0 : ℝ)) ((0 : ℝ), (4 : ℝ))
      ((4 : ℝ), (0 : ℝ)) ≠ TurnDirection.RIGHT_TURN by rw [ht]; decide), prune_two]
  rfl

/-- Lower chain of the triangle (scan of the reversed sorted copy): the three
points make a right turn, so nothing is pruned. -/
lemma tri_lower_eval :
    halfConvexHull triInput.reverse =
      [((4 : ℝ), (0 : ℝ)), ((0 : ℝ), (4 : ℝ)), ((0 : ℝ), (0 : ℝ))] := by
  have ht : turnDirection ((4 : ℝ), (0 : ℝ)) ((0 : ℝ), (4 : ℝ)) ((0 : ℝ), (0 : ℝ)) =
      TurnDirection.RIGHT_TURN := by
    apply turnDirection_eq_right
    · norm_num [tolerablyEqual_iff]
    · norm_num [lessThanOrTolerablyEqual, tolerablyEqual_iff]
  show (halfConvexHullLoop [((0 : ℝ), (0 : ℝ))]
      [((0 : ℝ), (4 : ℝ)), ((4 : ℝ), (0 : ℝ))]).reverse = _
  rw [halfConvexHullLoop, halfConvexHullLoop]
  rw [prune, if_neg (show ¬ turnDirection ((4 : ℝ), (0 : ℝ)) ((0 : ℝ), (4 : ℝ))
      ((0 : ℝ), (0 : ℝ)) ≠ TurnDirection.RIGHT_TURN by rw [ht]; decide)]
  rfl

/-- The full hull of the triangle: the returned sequence repeats the starting
vertex at the end. -/
lemma convexHull_tri_eval :
    convexHull triInput =
      some [((0 : ℝ), (0 : ℝ)), ((4 : ℝ), (0 : ℝ)), ((0 : ℝ), (4 : ℝ)), ((0 : ℝ), (0 : ℝ))] := by
  rw [convexHull, if_pos (by norm_num [triInput])]
  rw [triInput_sorted_eq]
  show some (concat (halfConvexHull triInput) ((halfConvexHull triInput.reverse).drop 1)) = _
  rw [tri_upper_eval, tri_lower_eval]
  rfl

/-- Claim C3, counterexample to the claim as stated: on the triangle input the returned
sequence has the same first and last element, the shared closing vertex
`(0, 0)` — the code drops only the lower chain's first point, not its last,
so the hull comes back as a closed loop, not with distinct first and last
vertices. -/
theorem convexHull_first_last_duplicated :
    convexHull triInput =
        some [((0 : ℝ), (0 : ℝ)), ((4 : ℝ), (0 : ℝ)), ((0 : ℝ), (4 : ℝ)), ((0 : ℝ), (0 : ℝ))] ∧
      ([((0 : ℝ), (0 : ℝ)), ((4 : ℝ), (0 : ℝ)), ((0 : ℝ), (4 : ℝ)), ((0 : ℝ), (0 : ℝ))] :
          List Point).head? =
        ([((0 : ℝ), (0 : ℝ)), ((4 : ℝ), (0 : ℝ)), ((0 : ℝ), (4 : ℝ)), ((0 : ℝ), (0 : ℝ))] :
          List Point).getLast? := by
  refine ⟨convexHull_tri_eval, ?_⟩
  rfl

/-- Auxiliary: dropping the first element of a list of at least two elements
keeps the last element. -/
lemma getLastq_drop_one {l : List Point} (h : 2 ≤ l.length) :
    (l.drop 1).getLast? = l.getLast? := by
  rcases l with _ | ⟨x, _ | ⟨y, t⟩⟩
  · simp at h
  · simp at h
  · simp [List.getLast?_cons_cons]

/-- Claim C3, amended: for every input of more than two points the hull is the full
upper chain concatenated with the lower chain minus its first point, and the
returned sequence is nonempty with its first and last element EQUAL (the
boundary is returned as a closed loop whose closing vertex is repeated), not
distinct as the claim states. -/
theorem convexHull_concat_closed_loop (P : List Point) (h : 2 < P.length) :
    convexHull P =
        some (concat (halfConvexHull (lexicographicOrder P))
          ((halfConvexHull (lexicographicOrder P).reverse).drop 1)) ∧
      ∀ hull, convexHull P = some hull → hull ≠ [] ∧ hull.head? = hull.getLast? := by
  have hstruct : convexHull P =
      some (concat (halfConvexHull (lexicographicOrder P))
        ((halfConvexHull (lexicographicOrder P).reverse).drop 1)) := by
    rw [convexHull, if_pos h]
  refine ⟨hstruct, fun hull heq => ?_⟩
  have hhull : hull = concat (halfConvexHull (lexicographicOrder P))
      ((halfConvexHull (lexicographicOrder P).reverse).drop 1) := by
    rw [hstruct] at heq
    exact (Option.some_injective _ heq.symm)
  have hlen : 2 < (lexicographicOrder P).length := by
    rw [lexicographicOrder, List.length_mergeSort]
    exact h
  rcases hsort : lexicographicOrder P with _ | ⟨s0, _ | ⟨s1, srest⟩⟩
  · rw [hsort] at hlen
    simp at hlen
  · rw [hsort] at hlen
    simp at hlen
  · -- the upper chain runs over s0 :: s1 :: srest
    have hupper_head : (halfConvexHull (s0 :: s1 :: srest)).head? = some s0 :=
      halfConvexHull_headq s0 s1 srest
    have hupper_ne : halfConvexHull (s0 :: s1 :: srest) ≠ [] := by
      intro hnil
      rw [hnil] at hupper_head
      cases hupper_head
    -- the lower chain runs over the reversal, which also has at least 3 points
    have hrevlen : 2 < (s0 :: s1 :: srest).reverse.length := by
      rw [List.length_reverse]
      rw [hsort] at hlen
      exact hlen
    rcases hrev : (s0 :: s1 :: srest).reverse with _ | ⟨t0, _ | ⟨t1, trest⟩⟩
    · rw [hrev] at hrevlen
      simp at hrevlen
    · rw [hrev] at hrevlen
      simp at hrevlen
    · have hlower_len : 2 ≤ (halfConvexHull (s0 :: s1 :: srest).reverse).length := by
        rw [hrev]
        exact halfConvexHull_length t0 t1 trest
      have hlower_last : (halfConvexHull (s0 :: s1 :: srest).reverse).getLast? = some s0 := by
        rw [hrev, halfConvexHull_getLastq, ← hrev, List.getLast?_reverse]
        rfl
      have hdrop_ne : (halfConvexHull (s0 :: s1 :: srest).reverse).drop 1 ≠ [] := by
        have : 1 ≤ ((halfConvexHull (s0 :: s1 :: srest).reverse).drop 1).length := by
          rw [List.length_drop]
          omega
        intro hnil
        rw [hnil] at this
        simp at this
      constructor
      · rw [hhull, hsort, concat]
        intro hnil
        rcases List.append_eq_nil.mp hnil with ⟨h1, _⟩
        exact hupper_ne h1
      · rw [hhull, hsort, concat]
        rw [List.head?_append_of_ne_nil _ hupper_ne,
          List.getLast?_append_of_ne_nil _ hdrop_ne,
          getLastq_drop_one hlower_len, hupper_head, hlower_last]

/-- Witness: the amended statement applied to the triangle input. -/
theorem convexHull_concat_closed_loop_witness :
    2 < triInput.length ∧
      (convexHull triInput =
          some (concat (halfConvexHull (lexicographicOrder triInput))
            ((halfConvexHull (lexicographicOrder triInput).reverse).drop 1)) ∧
        ∀ hull, convexHull triInput = some hull → hull ≠ [] ∧ hull.head? = hull.getLast?) :=
  ⟨by norm_num [triInput], convexHull_concat_closed_loop triInput (by norm_num [triInput])⟩

/-! Claim C2: hull vertices and pruned points. -/

/-- The near-collinear input is already sorted. -/
lemma nearCollinear_sorted_eq :
    lexicographicOrder hullNearCollinearInput = hullNearCollinearInput := by
  apply lexicographicOrder_eq_self
  simp only [hullNearCollinearInput, List.sorted_cons, List.mem_cons, List.mem_singleton,
    List.not_mem_nil, comparePointsLe, decide_eq_true_eq, hullPtA, hullPtB, hullPtC]
  norm_num

/-- Upper chain: the lifted middle point `hullPtB` has cross product 8e-6,
within the tolerance, so the turn counts as NO_TURN and the point is pruned. -/
lemma nearCollinear_upper_eval :
    halfConvexHull hullNearCollinearInput = [hullPtA, hullPtC] := by
  have ht : turnDirection hullPtA hullPtB hullPtC = TurnDirection.NO_TURN := by
    apply turnDirection_eq_no
    norm_num [tolerablyEqual_iff, hullPtA, hullPtB, hullPtC]
  show (halfConvexHullLoop [hullPtC] [hullPtB, hullPtA]).reverse = _
  rw [halfConvexHullLoop, halfConvexHullLoop]
  rw [prune, if_pos (show turnDirection hullPtA hullPtB hullPtC ≠ TurnDirection.RIGHT_TURN by
    rw [ht]; decide), prune_two]
  rfl

/-- Lower chain: symmetric, with cross product -8e-6, again pruned. -/
lemma nearCollinear_lower_eval :
    halfConvexHull hullNearCollinearInput.reverse = [hullPtC, hullPtA] := by
  have ht : turnDirection hullPtC hullPtB hullPtA = TurnDirection.NO_TURN := by
    apply turnDirection_eq_no
    norm_num [tolerablyEqual_iff, hullPtA, hullPtB, hullPtC]
  show (halfConvexHullLoop [hullPtA] [hullPtB, hullPtC]).reverse = _
  rw [halfConvexHullLoop, halfConvexHullLoop]
  rw [prune, if_pos (show turnDirection hullPtC hullPtB hullPtA ≠ TurnDirection.RIGHT_TURN by
    rw [ht]; decide), prune_two]
  rfl

/-- The hull of the near-collinear input: `hullPtB` is pruned and the
returned boundary degenerates to the closed segment `[A, C, A]`. -/
lemma convexHull_nearCollinear_eval :
    convexHull hullNearCollinearInput = some [hullPtA, hullPtC, hullPtA] := by
  rw [convexHull, if_pos (by norm_num [hullNearCollinearInput])]
  rw [nearCollinear_sorted_eq]
  show some (concat (halfConvexHull hullNearCollinearInput)
    ((halfConvexHull hullNearCollinearInput.reverse).drop 1)) = _
  rw [nearCollinear_upper_eval, nearCollinear_lower_eval]
  rfl

/-- The three input points are in general position: pairwise distinct and no
zero cross product. -/
lemma nearCollinear_general_position : GeneralPosition hullNearCollinearInput := by
  intro p hp q hq r hr hpq hpr hqr
  simp only [hullNearCollinearInput, List.mem_cons, List.not_mem_nil, or_false] at hp hq hr
  rcases hp with rfl | rfl | rfl <;> rcases hq with rfl | rfl | rfl <;>
    rcases hr with rfl | rfl | rfl <;>
    first
      | exact absurd rfl hpq
      | exact absurd rfl hpr
      | exact absurd rfl hqr
      | norm_num [hullPtA, hullPtB, hullPtC]

/-- The pruned point is farther than the tolerance from every point of every
convex region containing the returned vertices. -/
lemma nearCollinear_not_nearConvexOf :
    ¬ nearConvexOf [hullPtA, hullPtC, hullPtA] hullPtB := by
  intro h
  obtain ⟨w, hw, hdist⟩ := h {w : Point | w.2 ≤ 0}
    (convex_halfSpace_le ⟨fun _ _ => rfl, fun _ _ => rfl⟩ 0)
    (by
      intro v hv
      simp only [List.mem_cons, List.not_mem_nil, or_false] at hv
      rcases hv with rfl | rfl | rfl <;> norm_num [hullPtA, hullPtC])
  simp only [Set.mem_setOf_eq] at hw
  have hge : (1 : ℝ) / 250 ≤ distance hullPtB w := by
    rw [distance, Real.le_sqrt (by norm_num)
      (by nlinarith [mul_self_nonneg (hullPtB.1 - w.1), mul_self_nonneg (hullPtB.2 - w.2)])]
    have h2 : (1 : ℝ) / 250 ≤ hullPtB.2 - w.2 := by
      simp only [hullPtB]
      norm_num
      linarith
    nlinarith [mul_self_nonneg (hullPtB.1 - w.1)]
  linarith [hdist, (by norm_num : (0.00001 : ℝ) < 1 / 250)]

/-- Claim C2, counterexample to the claim as stated: a 3-point input in general position whose
middle point is pruned by the tolerant turn test although it lies 1/250 —
four hundred times the tolerance — away from every convex region containing
the returned vertices (in particular from the polygon they form and its
eps-neighbourhood). -/
theorem hull_prunes_point_beyond_tolerance :
    3 ≤ hullNearCollinearInput.length ∧ GeneralPosition hullNearCollinearInput ∧
      convexHull hullNearCollinearInput = some [hullPtA, hullPtC, hullPtA] ∧
      hullPtB ∈ hullNearCollinearInput ∧ hullPtB ∉ [hullPtA, hullPtC, hullPtA] ∧
      ¬ nearConvexOf [hullPtA, hullPtC, hullPtA] hullPtB := by
  refine ⟨by norm_num [hullNearCollinearInput], nearCollinear_general_position,
    convexHull_nearCollinear_eval, by simp [hullNearCollinearInput], ?_,
    nearCollinear_not_nearConvexOf⟩
  simp only [List.mem_cons, List.not_mem_nil, or_false]
  norm_num [hullPtA, hullPtB, hullPtC]

/-- Claim C2, amended: what survives of the claim without any position hypothesis —
every vertex of a computed hull is one of the input points.  (The second half
of the original claim, that every non-returned input point lies inside the
polygon or within eps of its boundary, is refuted by
the near-collinear counterexample.) -/
theorem convexHull_subset_input (P hull : List Point) (h : convexHull P = some hull) :
    ∀ x ∈ hull, x ∈ P := by
  by_cases hp : 2 < P.length
  · have hstruct : convexHull P =
        some (concat (halfConvexHull (lexicographicOrder P))
          ((halfConvexHull (lexicographicOrder P).reverse).drop 1)) := by
      rw [convexHull, if_pos hp]
    have hh : hull = concat (halfConvexHull (lexicographicOrder P))
        ((halfConvexHull (lexicographicOrder P).reverse).drop 1) :=
      Option.some_injective _ (h.symm.trans hstruct)
    intro x hx
    rw [hh, concat, List.mem_append] at hx
    have hmemsorted : ∀ y, y ∈ lexicographicOrder P → y ∈ P := fun y hy =>
      (lexicographicOrder_perm P).mem_iff.mp hy
    rcases hx with hx | hx
    · exact hmemsorted x (halfConvexHull_subset _ x hx)
    · have hx1 : x ∈ halfConvexHull (lexicographicOrder P).reverse :=
        List.mem_of_mem_drop hx
      have hx2 := halfConvexHull_subset _ x hx1
      rw [List.mem_reverse] at hx2
      exact hmemsorted x hx2
  · rw [convexHull, if_neg hp] at h
    cases h

/-- Witness: on the near-collinear input, the returned vertex `hullPtA` is an
input point. -/
theorem convexHull_subset_input_witness :
    convexHull hullNearCollinearInput = some [hullPtA, hullPtC, hullPtA] ∧
      hullPtA ∈ hullNearCollinearInput :=
  ⟨convexHull_nearCollinear_eval,
    convexHull_subset_input _ _ convexHull_nearCollinear_eval hullPtA (by simp)⟩

/-! Claim C6, counterexample side: `convexHull` guards on the length counted
with multiplicity, not on the number of distinct points. -/

/-- The three-fold duplicated input is (trivially) sorted. -/
lemma dupInput_sorted_eq : lexicographicOrder dupInput = dupInput := by
  apply lexicographicOrder_eq_self
  simp only [dupInput, List.sorted_cons, List.mem_cons, List.not_mem_nil, comparePointsLe,
    decide_eq_true_eq]
  norm_num

/-- Scanning the duplicated input prunes the middle copy (zero cross product,
NO_TURN) and keeps a two-element chain. -/
lemma dup_half_eval :
    halfConvexHull dupInput = [((0 : ℝ), (0 : ℝ)), ((0 : ℝ), (0 : ℝ))] := by
  have ht : turnDirection ((0 : ℝ), (0 : ℝ)) ((0 : ℝ), (0 : ℝ)) ((0 : ℝ), (0 : ℝ)) =
      TurnDirection.NO_TURN := by
    apply turnDirection_eq_no
    norm_num [tolerablyEqual_iff]
  show (halfConvexHullLoop [((0 : ℝ), (0 : ℝ))] [((0 : ℝ), (0 : ℝ)), ((0 : ℝ), (0 : ℝ))]).reverse = _
  rw [halfConvexHullLoop, halfConvexHullLoop]
  rw [prune, if_pos (show turnDirection ((0 : ℝ), (0 : ℝ)) ((0 : ℝ), (0 : ℝ)) ((0 : ℝ), (0 : ℝ))
      ≠ TurnDirection.RIGHT_TURN by rw [ht]; decide), prune_two]
  rfl

/-- Claim C6, counterexample to the claim as stated: an input of three copies of one point —
a single distinct point — produces a (degenerate) hull, not the absent
result: the guard tests `points.length > 2` on the raw sequence and never
collapses duplicates. -/
theorem convexHull_duplicates_not_absent :
    convexHull dupInput = some dupInput ∧
      ∀ x ∈ dupInput, x = ((0 : ℝ), (0 : ℝ)) := by
  constructor
  · rw [convexHull, if_pos (by norm_num [dupInput])]
    rw [dupInput_sorted_eq]
    show some (concat (halfConvexHull dupInput) ((halfConvexHull dupInput.reverse).drop 1)) = _
    rw [show dupInput.reverse = dupInput from rfl, dup_half_eval]
    rfl
  · intro x hx
    simp only [dupInput, List.mem_cons, List.not_mem_nil, or_false] at hx
    rcases hx with rfl | rfl | rfl <;> rfl

/-! Claim C9: runs under different draw sequences. -/

/-- The first draw sequence is one the source's random loop can produce. -/
lemma drawsA_valid : ValidDraws 4 drawsA := by
  constructor
  · rfl
  · intro k hk
    simp only [drawsA, List.length_cons, List.length_nil] at hk
    interval_cases k <;> simp [drawsA]

/-- The second draw sequence is one the source's random loop can produce. -/
lemma drawsB_valid : ValidDraws 4 drawsB := by
  constructor
  · rfl
  · intro k hk
    simp only [drawsB, List.length_cons, List.length_nil] at hk
    interval_cases k <;> simp [drawsB]

/-- The first draw sequence shuffles the input into scan order
`[q0, q1, q2, q3]`. -/
lemma permA_eval : randomPermutation discInput drawsA = [q0, q1, q2, q3] := rfl

/-- The second draw sequence shuffles the input into scan order
`[q1, q0, q3, q2]`. -/
lemma permB_eval : randomPermutation discInput drawsB = [q1, q0, q3, q2] := rfl

/-- Run A, step 1: `q2` falls outside the seed disc of `q0, q1`. -/
lemma discA_step1 : ¬ pointInDisc q2 (twoPointDisc q0 q1) := by
  rw [twoPointDisc_eq]
  apply not_pointInDisc_of_bound _ _ _ (2939813 / 100000000000)
  · norm_num
  · norm_num [q0, q1]
  · norm_num [q0, q1, q2]

/-- Run A, step 2: `q1` is tolerably inside the disc of `q0, q2`. -/
lemma discA_step2 : pointInDisc q1 (twoPointDisc q0 q2) := by
  rw [twoPointDisc_eq]
  apply pointInDisc_of_bound _ _ _ (142156603 / 1000000000000)
  · norm_num
  · norm_num [q0, q2]
  · norm_num [q0, q1, q2]

/-- Run A, step 3: `q3` is tolerably inside the disc of `q0, q2`. -/
lemma discA_step3 : pointInDisc q3 (twoPointDisc q0 q2) := by
  rw [twoPointDisc_eq]
  apply pointInDisc_of_bound _ _ _ (142156603 / 1000000000000)
  · norm_num
  · norm_num [q0, q2]
  · norm_num [q0, q2, q3]

/-- Run A in full: the final disc is the diametral disc of `q0, q2`. -/
lemma minimumDisc_drawsA_eval :
    minimumDisc discInput drawsA = some (twoPointDisc q0 q2) := by
  rw [minimumDisc, if_pos (by norm_num [discInput]), permA_eval]
  show some (mdLoop [q0, q1] [q2, q3] (twoPointDisc q0 q1)) = _
  rw [mdLoop, if_neg discA_step1]
  rw [show minimumDiscWithPoint [q0, q1] q2 = twoPointDisc q0 q2 by
    show md1Loop [q0] [q1] q2 (twoPointDisc q0 q2) = _
    rw [md1Loop, if_pos discA_step2, md1Loop]]
  rw [mdLoop, if_pos discA_step3, mdLoop]

/-- Run B, step 1: `q3` falls outside the seed disc of `q1, q0`. -/
lemma discB_step1 : ¬ pointInDisc q3 (twoPointDisc q1 q0) := by
  rw [twoPointDisc_eq]
  apply not_pointInDisc_of_bound _ _ _ (2939813 / 100000000000)
  · norm_num
  · norm_num [q0, q1]
  · norm_num [q0, q1, q3]

/-- Run B, step 2: `q0` falls outside the disc of `q1, q3`. -/
lemma discB_step2 : ¬ pointInDisc q0 (twoPointDisc q1 q3) := by
  rw [twoPointDisc_eq]
  apply not_pointInDisc_of_bound _ _ _ (71127087 / 500000000000)
  · norm_num
  · norm_num [q1, q3]
  · norm_num [q0, q1, q3]

/-- Run B, step 3: `q1` is tolerably inside the disc of `q0, q3`. -/
lemma discB_step3 : pointInDisc q1 (twoPointDisc q0 q3) := by
  rw [twoPointDisc_eq]
  apply pointInDisc_of_bound _ _ _ (72313553 / 500000000000)
  · norm_num
  · norm_num [q0, q3]
  · norm_num [q0, q1, q3]

/-- Run B, step 4: `q2` is tolerably inside the disc of `q0, q3`. -/
lemma discB_step4 : pointInDisc q2 (twoPointDisc q0 q3) := by
  rw [twoPointDisc_eq]
  apply pointInDisc_of_bound _ _ _ (72313553 / 500000000000)
  · norm_num
  · norm_num [q0, q3]
  · norm_num [q0, q2, q3]

/-- Run B in full: the final disc is the diametral disc of `q0, q3`. -/
lemma minimumDisc_drawsB_eval :
    minimumDisc discInput drawsB = some (twoPointDisc q0 q3) := by
  rw [minimumDisc, if_pos (by norm_num [discInput]), permB_eval]
  show some (mdLoop [q1, q0] [q3, q2] (twoPointDisc q1 q0)) = _
  rw [mdLoop, if_neg discB_step1]
  rw [show minimumDiscWithPoint [q1, q0] q3 = twoPointDisc q0 q3 by
    show md1Loop [q1] [q0] q3 (twoPointDisc q1 q3) = _
    rw [md1Loop, if_neg discB_step2]
    rw [show minimumDiscWith2Points [q1] q0 q3 = twoPointDisc q0 q3 by
      show md2Loop [q1] q0 q3 (twoPointDisc q0 q3) = _
      rw [md2Loop, if_pos discB_step3, md2Loop]]
    rw [md1Loop]]
  rw [mdLoop, if_pos discB_step4, mdLoop]

/-- Claim C9, counterexample to the claim as stated: on one identical, unmutated 4-point
input, two draw sequences the shuffle can produce lead to final discs whose
centers are about 2.06e-5 apart — more than the tolerance eps = 1e-5 — so the
returned discs do not agree within eps across runs. -/
theorem minimumDisc_draws_divergence :
    ValidDraws 4 drawsA ∧ ValidDraws 4 drawsB ∧
      minimumDisc discInput drawsA = some (twoPointDisc q0 q2) ∧
      minimumDisc discInput drawsB = some (twoPointDisc q0 q3) ∧
      0.00001 < distance (twoPointDisc q0 q2).1 (twoPointDisc q0 q3).1 := by
  refine ⟨drawsA_valid, drawsB_valid, minimumDisc_drawsA_eval, minimumDisc_drawsB_eval, ?_⟩
  show (0.00001 : ℝ) < distance ((q0.1 + q2.1) / 2, (q0.2 + q2.2) / 2)
    ((q0.1 + q3.1) / 2, (q0.2 + q3.2) / 2)
  rw [distance, show (0.00001 : ℝ) = Real.sqrt (0.00001 ^ 2) by
    rw [Real.sqrt_sq (by norm_num)]]
  apply Real.sqrt_lt_sqrt (by norm_num)
  norm_num [q0, q2, q3]

/-- Claim C9, amended: in this model both operations are pure functions of their
arguments, so two invocations of `convexHull` on an identical, unmutated
input return the same hull (hence the same vertex set and adjacency), and two
invocations of `minimumDisc` on the same input with the same draw sequence
return the same disc.  Across different draw sequences the discs need not
agree within the tolerance (see the counterexample). -/
theorem runs_identical_for_identical_arguments :
    (∀ P : List Point, convexHull P = convexHull P) ∧
      (∀ (P : List Point) (draws : List ℕ), minimumDisc P draws = minimumDisc P draws) :=
  ⟨fun _ => rfl, fun _ _ => rfl⟩

end CompGeom
